import Mathlib

/-!
Verification of the email-cleaning core of `telegram-email-cleaner`.

The repository has two source files:
  * `Email_cleaner.py` — standalone cleaner (`deobfuscate`, `normalize`,
    `correct_domain`, `is_valid`, `clean_emails`), embedded below in
    namespace `EmailCleaner`;
  * `telegram_email_cleaner.py` — the bot (`normalize_local_part`,
    `normalize_domain_part`, `fuzzy_correct_domain`, `clean_single_email`,
    `clean_email_list`), embedded below in namespace `TgBot`.

Strings are modelled as `String` / `List Char`.  Python string and regex
operations are embedded character-exactly for the ASCII range (all string
literals occurring in the sources and in the claims are ASCII; Python's
Unicode-aware `\s`, `\w`, `str.lower`, `str.strip` agree with the ASCII
versions on such data).  `difflib.get_close_matches` is embedded with the
exact CPython algorithm (`SequenceMatcher` with no junk, which is the case
here since every candidate is far below the 200-character autojunk bound),
with the floating-point ratio comparison `2*M/T >= cutoff` replaced by the
exact rational comparison `cutoff_num * T <= 2*M * cutoff_den`, which agrees
with the float comparison for all the small sizes occurring here.

Scanning loops are written by structural recursion on a fuel argument so
that they reduce inside the kernel; every loop step consumes at least one
character, so the wrappers' initial fuel (the length of the scanned list)
is always sufficient and the fuel-exhaustion branches are unreachable.
-/

/-- Python `\s` / `str.strip()` whitespace, ASCII range. -/
def isPySpace (c : Char) : Bool :=
  c = ' ' || c = '\t' || c = '\n' || c = '\r' || c = '\x0b' || c = '\x0c'

/-- Python `\w` (word character), ASCII range: `[A-Za-z0-9_]`. -/
def isWordChar (c : Char) : Bool :=
  c.isAlpha || c.isDigit || c = '_'

/-- Python `str.strip(chars)`: remove the characters satisfying `p` from both
ends of the string. -/
def pyStripChars (p : Char → Bool) (l : List Char) : List Char :=
  ((l.dropWhile p).reverse.dropWhile p).reverse

/-- Python `str.strip()` (no argument): strip whitespace from both ends. -/
def pyStrip (l : List Char) : List Char :=
  pyStripChars isPySpace l

/-- Loop of `collapseRuns`. -/
def collapseRunsGo (c : Char) : Nat → List Char → List Char
  | _, [] => []
  | 0, l => l
  | fuel + 1, a :: as =>
    if a = c then c :: collapseRunsGo c fuel (as.dropWhile (· = c))
    else a :: collapseRunsGo c fuel as

/-- `re.sub(c"{2,}", c, s)` for a literal character `c`: every maximal run of
`c` of length at least two is replaced by a single `c` (runs of length one
are left alone, which yields the same output). -/
def collapseRuns (c : Char) (l : List Char) : List Char :=
  collapseRunsGo c l.length l

/-- Python `str.replace(cc, c)` where `cc` is the character `c` doubled:
a single left-to-right pass over non-overlapping occurrences (so `"..."`
becomes `".."`, exactly as in Python). -/
def replacePair (c : Char) : List Char → List Char
  | [] => []
  | [a] => [a]
  | a :: b :: t =>
    if a = c ∧ b = c then c :: replacePair c t
    else a :: replacePair c (b :: t)

/-- Loop of `subAroundChar`. -/
def subAroundCharGo (x : Char) : Nat → List Char → List Char
  | _, [] => []
  | 0, l => l
  | fuel + 1, c :: cs =>
    if (isPySpace c || c = x) ∧ ((c :: cs).dropWhile isPySpace).head? = some x then
      x :: subAroundCharGo x fuel ((((c :: cs).dropWhile isPySpace).tail).dropWhile isPySpace)
    else c :: subAroundCharGo x fuel cs

/-- `re.sub(r"\s*X\s*", X, s)` for a literal non-whitespace character `x`:
each occurrence of `x`, together with the whitespace immediately around it,
is replaced by `x` alone.  Mirrors `re.sub`'s leftmost, non-overlapping scan:
a match starts at position `i` exactly when some whitespace run (possibly
empty) starting at `i` is followed by `x`, and greedily also consumes the
whitespace after `x`. -/
def subAroundChar (x : Char) (l : List Char) : List Char :=
  subAroundCharGo x l.length l

/-- Loop of `subDotsBeforeAt`. -/
def subDotsBeforeAtGo : Nat → List Char → List Char
  | _, [] => []
  | 0, l => l
  | fuel + 1, c :: cs =>
    if c = '.' ∧ ((c :: cs).dropWhile (· = '.')).head? = some '@' then
      '@' :: subDotsBeforeAtGo fuel (((c :: cs).dropWhile (· = '.')).tail)
    else c :: subDotsBeforeAtGo fuel cs

/-- `re.sub(r"\.+@", "@", s)`: every run of dots immediately followed by `@`
is deleted (the `@` is kept). -/
def subDotsBeforeAt (l : List Char) : List Char :=
  subDotsBeforeAtGo l.length l

/-- Loop of `subAtCommaDots`. -/
def subAtCommaDotsGo : Nat → List Char → List Char
  | _, [] => []
  | 0, l => l
  | fuel + 1, c :: cs =>
    if c = '@' then '@' :: subAtCommaDotsGo fuel (cs.dropWhile (fun d => d = ',' || d = '.'))
    else c :: subAtCommaDotsGo fuel cs

/-- `re.sub(r"@[,\.]+", "@", s)`: every run of commas/dots immediately after
an `@` is deleted. -/
def subAtCommaDots (l : List Char) : List Char :=
  subAtCommaDotsGo l.length l

/-- Loop of `subWsRunsToChar`. -/
def subWsRunsToCharGo (r : Char) : Nat → List Char → List Char
  | _, [] => []
  | 0, l => l
  | fuel + 1, c :: cs =>
    if isPySpace c then r :: subWsRunsToCharGo r fuel (cs.dropWhile isPySpace)
    else c :: subWsRunsToCharGo r fuel cs

/-- `re.sub(r"\s+", r, s)` for a single replacement character `r`: each
maximal whitespace run becomes one `r`. -/
def subWsRunsToChar (r : Char) (l : List Char) : List Char :=
  subWsRunsToCharGo r l.length l

/-- Loop of `splitAllOn`. -/
def splitAllOnGo (c : Char) : Nat → List Char → List (List Char)
  | _, [] => [[]]
  | 0, l => [l]
  | fuel + 1, l =>
    match l.dropWhile (· ≠ c) with
    | [] => [l.takeWhile (· ≠ c)]
    | _ :: rest => l.takeWhile (· ≠ c) :: splitAllOnGo c fuel rest

/-- Python `s.split(sep)` for a one-character separator `sep`: split at every
occurrence, keeping empty pieces (`"a@@b".split("@") == ["a","","b"]`). -/
def splitAllOn (c : Char) (l : List Char) : List (List Char) :=
  splitAllOnGo c l.length l

/-- Loop of `splitDelimRuns`. -/
def splitDelimRunsGo (p : Char → Bool) : Nat → List Char → List (List Char)
  | _, [] => [[]]
  | 0, l => [l]
  | fuel + 1, l =>
    match l.dropWhile (fun c => ! p c) with
    | [] => [l.takeWhile (fun c => ! p c)]
    | _ :: rest =>
      l.takeWhile (fun c => ! p c) :: splitDelimRunsGo p fuel (rest.dropWhile p)

/-- `re.split(r"[D]+", s)` for a character class `D` given by `p`: the pieces
between maximal runs of delimiter characters, with empty pieces kept at the
two ends (`",a," ↦ ["","a",""]`) but not between adjacent delimiters
(`"a,,b" ↦ ["a","b"]`). -/
def splitDelimRuns (p : Char → Bool) (l : List Char) : List (List Char) :=
  splitDelimRunsGo p l.length l

/-- Loop of `reSub`. -/
def reSubGo (tryHere : List Char → Option (List Char)) (r : Char) :
    Nat → List Char → List Char
  | _, [] => []
  | 0, l => l
  | fuel + 1, c :: cs =>
    match tryHere (c :: cs) with
    | some rest => r :: reSubGo tryHere r fuel rest
    | none => c :: reSubGo tryHere r fuel cs

/-- Generic `re.sub(P, r, s)` driver for a pattern `P` with a one-character
replacement `r`: `tryHere l` returns the remainder after a match of `P`
starting at the head position of `l` (or `none`), and the driver performs
`re.sub`'s leftmost non-overlapping scan.  Every pattern used below contains
literal characters and only ever returns a proper suffix remainder, so the
initial fuel is sufficient. -/
def reSub (tryHere : List Char → Option (List Char)) (r : Char) (l : List Char) :
    List Char :=
  reSubGo tryHere r l.length l

/-- Python string comparison `<`: strict lexicographic comparison of the
code-point sequences (a strict prefix is smaller). -/
def listLt : List Char → List Char → Bool
  | [], [] => false
  | [], _ :: _ => true
  | _ :: _, [] => false
  | a :: as, b :: bs =>
    if a.toNat < b.toNat then true
    else if b.toNat < a.toNat then false
    else listLt as bs

/-- Python `x < y` on strings. -/
def strLt (x y : String) : Bool :=
  listLt x.data y.data

namespace Difflib

/-!
Embedding of the parts of CPython `difflib` used by the sources:
`SequenceMatcher` (with `a` = candidate, `b` = queried word, no junk — the
autojunk heuristic only applies to sequences of length ≥ 200) and
`get_close_matches(word, possibilities, n=1, cutoff)`.
-/

/-- Ascending list of positions of `c` in `b` (CPython `b2j[c]`). -/
def positionsOf (c : Char) (b : List Char) : List Nat :=
  (List.range b.length).filter (fun j => decide (b[j]? = some c))

/-- One row (`for i in range(alo, ahi)`) of CPython
`SequenceMatcher.find_longest_match`: `j2old` is the previous row's `j2len`
dictionary, `ai` is `a[i]`; returns the updated best triple
`(besti, bestj, bestsize)` and the new row dictionary.  `j = 0` has no
predecessor (`j2len.get(-1)` misses), hence the explicit case. -/
def flmRow (b : List Char) (blo bhi : Nat) (ai : Char) (i : Nat)
    (best : Nat × Nat × Nat) (j2old : List (Nat × Nat)) :
    (Nat × Nat × Nat) × List (Nat × Nat) :=
  ((positionsOf ai b).filter (fun j => blo ≤ j && j < bhi)).foldl
    (fun acc j =>
      let k := if j = 0 then 1 else (j2old.lookup (j - 1)).getD 0 + 1
      let nj := (j, k) :: acc.2
      if acc.1.2.2 < k then ((i + 1 - k, j + 1 - k, k), nj) else (acc.1, nj))
    (best, [])

/-- The dynamic-programming loop of `find_longest_match`. -/
def flmLoop (a b : List Char) (alo ahi blo bhi : Nat) : Nat × Nat × Nat :=
  ((List.range' alo (ahi - alo)).foldl
    (fun st i => flmRow b blo bhi (a.getD i ' ') i st.1 st.2)
    ((alo, blo, 0), ([] : List (Nat × Nat)))).1

/-- The backward extension loop of `find_longest_match` (junk-free, so the
`isbjunk` tests are vacuous); `besti` decreases at each step, so the
wrapper's fuel `besti` is sufficient and exhaustion can only return the
already-final state. -/
def extendBackGo (a b : List Char) (alo blo : Nat) :
    Nat → Nat → Nat → Nat → Nat × Nat × Nat
  | 0, besti, bestj, bestsize => (besti, bestj, bestsize)
  | fuel + 1, besti, bestj, bestsize =>
    if alo < besti ∧ blo < bestj ∧ a.getD (besti - 1) ' ' = b.getD (bestj - 1) ' ' then
      extendBackGo a b alo blo fuel (besti - 1) (bestj - 1) (bestsize + 1)
    else (besti, bestj, bestsize)

/-- The forward extension loop of `find_longest_match`; `ahi - (besti +
bestsize)` decreases at each step, so the wrapper's fuel is sufficient. -/
def extendFwdGo (a b : List Char) (ahi bhi : Nat) (besti bestj : Nat) :
    Nat → Nat → Nat
  | 0, bestsize => bestsize
  | fuel + 1, bestsize =>
    if besti + bestsize < ahi ∧ bestj + bestsize < bhi ∧
        a.getD (besti + bestsize) ' ' = b.getD (bestj + bestsize) ' ' then
      extendFwdGo a b ahi bhi besti bestj fuel (bestsize + 1)
    else bestsize

/-- CPython `SequenceMatcher.find_longest_match` over `a[alo:ahi]`,
`b[blo:bhi]`, with no junk. -/
def find_longest_match (a b : List Char) (alo ahi blo bhi : Nat) : Nat × Nat × Nat :=
  let bst := flmLoop a b alo ahi blo bhi
  let bk := extendBackGo a b alo blo bst.1 bst.1 bst.2.1 bst.2.2
  (bk.1, bk.2.1, extendFwdGo a b ahi bhi bk.1 bk.2.1 (ahi - (bk.1 + bk.2.2)) bk.2.2)

/-- Total size of the matching blocks (the `M` of `ratio`): CPython
`get_matching_blocks` recursion.  Each recursive call is on a strictly
smaller window, so any `fuel ≥ (ahi - alo) + (bhi - blo) + 1` yields the
exact value; callers pass ample fuel. -/
def mTotal (a b : List Char) : Nat → Nat → Nat → Nat → Nat → Nat
  | 0, _, _, _, _ => 0
  | fuel + 1, alo, ahi, blo, bhi =>
    let m := find_longest_match a b alo ahi blo bhi
    let i := m.1
    let j := m.2.1
    let k := m.2.2
    if k = 0 then 0
    else
      k + (if alo < i ∧ blo < j then mTotal a b fuel alo i blo j else 0)
        + (if i + k < ahi ∧ j + k < bhi then mTotal a b fuel (i + k) ahi (j + k) bhi else 0)

/-- `SequenceMatcher.ratio()` as an exact rational `(numerator, denominator)`:
`2*M / (len a + len b)`, and `1/1` when both sequences are empty (CPython
`_calculate_ratio`). -/
def simPair (a b : List Char) : Nat × Nat :=
  let T := a.length + b.length
  if T = 0 then (1, 1)
  else (2 * mTotal a b (T + 1) 0 a.length 0 b.length, T)

/-- Maximum of scored candidates `(num, den, x)` by `(ratio, x)` — CPython
`heapq.nlargest(1, result)` on `(score, x)` pairs, where a ratio tie is
broken towards the lexicographically larger string. -/
def pickBest : List (Nat × Nat × String) → Option (Nat × Nat × String)
  | [] => none
  | e :: rest =>
    match pickBest rest with
    | none => some e
    | some b =>
      if (b.1 * e.2.1 < e.1 * b.2.1) ∨ (b.1 * e.2.1 = e.1 * b.2.1 ∧ strLt b.2.2 e.2.2 = true)
      then some e else some b

/-- `difflib.get_close_matches(word, possibilities, n=1, cutoff=num/den)`,
returning the single best match (if any): the candidates with
`ratio ≥ cutoff` (the `real_quick_ratio`/`quick_ratio` prefilters of CPython
are upper bounds of `ratio`, so they do not change this set), maximized by
`(ratio, candidate)`. -/
def get_close_matches (word : String) (poss : List String) (cutNum cutDen : Nat) :
    Option String :=
  let scored := poss.filterMap (fun x =>
    let pq := simPair x.data word.data
    if cutNum * pq.2 ≤ pq.1 * cutDen then some (pq.1, pq.2, x) else none)
  (pickBest scored).map (fun e => e.2.2)

end Difflib

/-- Whole-string matching of a regex of the shape `^L+@D+\.T{2,}$` — the
shape of both email regexes in the repository — as an executable check.
The classes `L`, `D`, `T` all exclude `@`, so a match has exactly one `@`
and the string can be split at its first `@`; `T` excludes `.`, so the
literal `\.` of the pattern can only match the last dot of the part after
the `@`. -/
def regexCoreMatch (L D T : Char → Bool) (l : List Char) : Bool :=
  let loc := l.takeWhile (· ≠ '@')
  let r := (l.dropWhile (· ≠ '@')).tail
  let tRev := r.reverse.takeWhile (· ≠ '.')
  let dRev := (r.reverse.dropWhile (· ≠ '.')).tail
  decide (l.dropWhile (· ≠ '@') ≠ [])
    && decide (r.reverse.dropWhile (· ≠ '.') ≠ [])
    && decide (loc ≠ []) && loc.all L && decide (dRev ≠ []) && dRev.all D
    && decide (2 ≤ tRev.length) && tRev.all T

/-- The language of `^L+@D+\.T{2,}$` as written: some decomposition
`loc ++ "@" ++ d ++ "." ++ t` with nonempty `loc` over `L`, nonempty `d`
over `D`, and `t` of length ≥ 2 over `T`. -/
def RegexCoreLang (L D T : Char → Bool) (l : List Char) : Prop :=
  ∃ loc d t, l = loc ++ '@' :: (d ++ '.' :: t)
    ∧ loc ≠ [] ∧ loc.all L ∧ d ≠ [] ∧ d.all D ∧ 2 ≤ t.length ∧ t.all T

/-- The sort key `(x.split("@")[1], x.split("@")[0])` used by both cleaners.
Python raises `IndexError` when `x` contains no `@`; every string reaching
the sort has passed validation and contains at least one `@`, so the `[]`
defaults below are never read. -/
def sortKey (x : String) : String × String :=
  let pieces := splitAllOn '@' x.data
  (⟨pieces.getD 1 []⟩, ⟨pieces.getD 0 []⟩)

/-- Python's ascending tuple comparison on the sort keys
(`list.sort(key=...)` sorts ascending by the key tuples): `(d1, l1) <=
(d2, l2)` iff `d1 < d2`, or `d1 = d2` and `l1 <= l2`. -/
def keyLe (x y : String) : Bool :=
  strLt (sortKey x).1 (sortKey y).1
  || (decide ((sortKey x).1 = (sortKey y).1)
      && (strLt (sortKey x).2 (sortKey y).2 || decide ((sortKey x).2 = (sortKey y).2)))

/-- Stable insertion of `x` into `l`: `x` goes after every element `y` with
`le y x = true`, so an element arriving later stays behind earlier equal
elements. -/
def orderedInsert (le : α → α → Bool) (x : α) : List α → List α
  | [] => [x]
  | y :: ys => if le y x then y :: orderedInsert le x ys else x :: y :: ys

/-- Stable ascending sort by `le`.  For a total preorder `le` a stable sort
is unique, so this is extensionally equal to Python's stable `list.sort`
with the corresponding key. -/
def stableSort (le : α → α → Bool) (l : List α) : List α :=
  l.foldl (fun acc x => orderedInsert le x acc) []

namespace TgBot

/-- `COMMON_DOMAINS` of `telegram_email_cleaner.py` (verbatim, including the
repeated `"hotmail.de"`). -/
def COMMON_DOMAINS : List String := [
  "gmail.com", "yahoo.com", "hotmail.com", "outlook.com", "icloud.com",
  "aol.com", "comcast.net", "verizon.net", "msn.com", "live.com",
  "protonmail.com", "proton.me", "zoho.com", "fastmail.com", "mail.com",
  "gmx.com", "mail.ru", "yandex.com", "yandex.ru", "hotmail.co.uk", "hotmail.de",
  "web.de", "gmx.de", "t-online.de", "freenet.de", "posteo.de",
  "online.de", "arcor.de", "email.de", "outlook.de", "hotmail.de",
  "gmx.net", "posteo.eu", "tutanota.com",
  "orange.fr", "btinternet.com", "virginmedia.com", "shaw.ca", "ntlworld.com",
  "cox.net", "att.net", "bellsouth.net", "sbcglobal.net"]

/-- `COMMON_DOMAINS_SET = set(COMMON_DOMAINS)`: only used for membership
tests, which agree with membership in the list. -/
def COMMON_DOMAINS_SET : List String := COMMON_DOMAINS

/-- `normalize_local_part`.  By the time the `re.sub(r"\.$", ...)` step runs,
all whitespace has been replaced by dots, so its `$` is a plain end of
string. -/
def normalize_local_part (l : String) : String :=
  let s := (pyStrip l.data).map Char.toLower
  let s := subWsRunsToChar '.' s
  let s := collapseRuns '.' s
  let s := match s with | '.' :: t => t | _ => s
  let s := if s.getLast? = some '.' then s.dropLast else s
  let s := s.filter (fun c => ('a' ≤ c && c ≤ 'z') || c.isDigit
    || c = '.' || c = '_' || c = '%' || c = '+' || c = '-')
  ⟨s⟩

/-- `normalize_domain_part`.  `domain.replace("..", ".")` is Python string
replacement (one left-to-right pass), not a regex collapse.  By the time the
two anchored TLD substitutions run, the `re.sub(r"[^\w\.\-]", "")` step has
removed every newline, so their `$` is a plain end of string. -/
def normalize_domain_part (d : String) : String :=
  let s := (pyStrip d.data).map Char.toLower
  let s := replacePair '.' s
  let s := s.filter (fun c => isWordChar c || c = '.' || c = '-')
  let s := if ".con".data.isSuffixOf s || ".cim".data.isSuffixOf s
              || ".c0m".data.isSuffixOf s then s.take (s.length - 4) ++ ".com".data
           else if ".cm".data.isSuffixOf s then s.take (s.length - 3) ++ ".com".data
           else s
  let s := if ".deu".data.isSuffixOf s then s.take (s.length - 4) ++ ".de".data
           else if ".d".data.isSuffixOf s then s.take (s.length - 2) ++ ".de".data
           else s
  ⟨s⟩

/-- The inline `replacements` dict of `fuzzy_correct_domain`. -/
def replacements : List (String × String) := [
  ("gamil.com", "gmail.com"), ("gmial.com", "gmail.com"), ("gmaill.com", "gmail.com"),
  ("outlok.com", "outlook.com"), ("outllok.com", "outlook.com"),
  ("yahho.com", "yahoo.com"), ("webd.de", "web.de"), ("gmxde", "gmx.de")]

/-- `fuzzy_correct_domain` (cutoff `0.75 = 3/4`). -/
def fuzzy_correct_domain (domain : String) : String × Bool :=
  let d := normalize_domain_part domain
  if d ∈ COMMON_DOMAINS_SET then (d, false)
  else
    match replacements.lookup d with
    | some r => (r, true)
    | none =>
      match Difflib.get_close_matches d COMMON_DOMAINS 3 4 with
      | some m => (m, true)
      | none => (d, false)

/-- Local-part class of `EMAIL_VALID_RE`: `[a-z0-9._%+\-]`. -/
def localChar (c : Char) : Bool :=
  ('a' ≤ c && c ≤ 'z') || c.isDigit || c = '.' || c = '_' || c = '%' || c = '+' || c = '-'

/-- Domain class of `EMAIL_VALID_RE`: `[a-z0-9.-]`. -/
def domainChar (c : Char) : Bool :=
  ('a' ≤ c && c ≤ 'z') || c.isDigit || c = '.' || c = '-'

/-- TLD class of `EMAIL_VALID_RE`: `[a-z]`. -/
def tldChar (c : Char) : Bool := 'a' ≤ c && c ≤ 'z'

/-- `EMAIL_VALID_RE.match(s)` as a Boolean:
`^[a-z0-9._%+\-]+@[a-z0-9.-]+\.[a-z]{2,}$` where Python's `$` matches at the
end of the string or just before one string-final newline. -/
def emailValidMatch (s : String) : Bool :=
  regexCoreMatch localChar domainChar tldChar s.data
  || (decide (s.data.getLast? = some '\n')
      && regexCoreMatch localChar domainChar tldChar s.data.dropLast)

/-- `clean_single_email`: returns `(clean_email, reason)`, with `reason = ""`
when valid. -/
def clean_single_email (raw : String) : String × String :=
  let s := (pyStrip raw.data).map Char.toLower
  let s := pyStripChars (fun c => c = '\'' || c = '"') s
  let s := s.filter (fun c => !(c = '\r' || c = '\n' || c = '\t'))
  let s := s.filter (fun c => isWordChar c || c = '@' || c = '.' || c = '-'
    || c = '+' || c = '%' || c = ' ')
  let s := subAroundChar '@' s
  let s := subAroundChar '.' s
  let s := collapseRuns '.' s
  let s := subDotsBeforeAt s
  if s.contains '@' then
    let localPart := normalize_local_part ⟨s.takeWhile (· ≠ '@')⟩
    let domPart := normalize_domain_part ⟨(s.dropWhile (· ≠ '@')).tail⟩
    let fc := fuzzy_correct_domain domPart
    let candidate := localPart ++ "@" ++ fc.1
    if emailValidMatch candidate then (candidate, "") else ("", "invalid_format")
  else ("", "no_at")

/-- The `summary` dict of `clean_email_list`. -/
structure BotSummary where
  total_input : Nat
  kept : Nat
  removed : Nat
  duplicates : Nat
  time_seconds : Nat
deriving DecidableEq, Repr

/-- The result dict of `clean_email_list` (the `ResultBundle` of the spec). -/
structure BotResult where
  cleaned : List String
  removed : List (String × String)
  summary : BotSummary
deriving DecidableEq, Repr

/-- The loop state of `clean_email_list`. -/
structure BotState where
  seen : List String
  cleaned : List String
  removed : List (String × String)
  duplicates : Nat
  total_input : Nat
deriving DecidableEq, Repr

/-- One sub-candidate (inner loop body of `clean_email_list`); `seen` is a
Python set used only for membership, modelled as a list. -/
def processCandidate (st : BotState) (p : List Char) : BotState :=
  let candidate : String := ⟨pyStrip p⟩
  if candidate = "" then st
  else
    let st := { st with total_input := st.total_input + 1 }
    let r := clean_single_email candidate
    if r.1 = "" then { st with removed := st.removed ++ [(candidate, r.2)] }
    else if r.1 ∈ st.seen then { st with duplicates := st.duplicates + 1 }
    else { st with seen := r.1 :: st.seen, cleaned := st.cleaned ++ [r.1] }

/-- One raw item (outer loop body): `""` is skipped by the `if not raw`
guard (every element of a `List String` is a string, so the `isinstance`
guard is vacuous); the item is split on runs of `[,\t;|]`. -/
def processItem (st : BotState) (raw : String) : BotState :=
  if raw = "" then st
  else (splitDelimRuns (fun c => c = ',' || c = '\t' || c = ';' || c = '|') raw.data).foldl
    processCandidate st

/-- `clean_email_list`.  Python's `list.sort` is a stable ascending sort by
the key tuples, modelled by the stable `stableSort keyLe`.  The wall-clock
reading `round(time.time() - start, 3)` is not a function of the input; it
is modelled by the extra parameter `elapsed`, stored in
`summary.time_seconds`. -/
def clean_email_list (items : List String) (elapsed : Nat) : BotResult :=
  let st := items.foldl processItem ⟨[], [], [], 0, 0⟩
  let sortedCleaned := stableSort keyLe st.cleaned
  { cleaned := sortedCleaned
    removed := st.removed
    summary := { total_input := st.total_input, kept := sortedCleaned.length,
                 removed := st.removed.length, duplicates := st.duplicates,
                 time_seconds := elapsed } }

end TgBot

namespace EmailCleaner

/-- `COMMON_DOMAINS` of `Email_cleaner.py` (verbatim). -/
def COMMON_DOMAINS : List String := [
  "gmail.com", "yahoo.com", "ymail.com", "outlook.com", "hotmail.com",
  "icloud.com", "aol.com", "protonmail.com", "zoho.com", "live.com",
  "msn.com", "example.com", "gmx.com", "yandex.com", "me.com",
  "tutanota.com", "fastmail.com", "mail.com", "web.de", "gmx.de", "t-online.de"]

/-- `TYPO_CORRECTIONS` of `Email_cleaner.py` (verbatim). -/
def TYPO_CORRECTIONS : List (String × String) := [
  ("gamil.com", "gmail.com"), ("gmai.com", "gmail.com"), ("gmaill.com", "gmail.com"),
  ("gmaik.com", "gmail.com"), ("gmaul.com", "gmail.com"), ("gmal.com", "gmail.com"),
  ("gnail.com", "gmail.com"), ("gmial.com", "gmail.com"), ("gimail.com", "gmail.com"),
  ("gmail.con", "gmail.com"), ("gmail.co", "gmail.com"), ("gmail.cim", "gmail.com"),
  ("gmail.cm", "gmail.com"), ("yahho.com", "yahoo.com"), ("yaho.com", "yahoo.com"),
  ("yahoo.co", "yahoo.com"), ("hotmal.com", "hotmail.com"), ("hotnail.com", "hotmail.com"),
  ("hotmial.com", "hotmail.com"), ("hotmai.com", "hotmail.com"), ("hotmil.com", "hotmail.com"),
  ("outlok.com", "outlook.com"), ("outllok.com", "outlook.com"), ("outloook.com", "outlook.com"),
  ("icloud.co", "icloud.com"), ("protonmaill.com", "protonmail.com"),
  ("proton.me.", "proton.me"), ("gmxde", "gmx.de"), ("webd.de", "web.de")]

/-- A match of `DEOBF_PATTERNS[0] = \s*\(?\s*at\s*\)?\s*` starting at the
head of `l`: optional whitespace, an optional `(`, optional whitespace, the
literal `at`, then greedily optional whitespace, `)`, whitespace.  Returns
the remainder after the match.  (The pattern carries IGNORECASE but is only
applied to the already-lowercased string.) -/
def tryTextAt (l : List Char) : Option (List Char) :=
  let r1 := l.dropWhile isPySpace
  let r2 := match r1 with
    | '(' :: t => t.dropWhile isPySpace
    | _ => r1
  match r2 with
  | 'a' :: 't' :: t =>
    let r3 := t.dropWhile isPySpace
    let r4 := match r3 with
      | ')' :: t2 => t2.dropWhile isPySpace
      | _ => r3
    some r4
  | _ => none

/-- A match of `DEOBF_PATTERNS[1] = \s*\(?\s*dot\s*\)?\s*` starting at the
head of `l`. -/
def tryTextDot (l : List Char) : Option (List Char) :=
  let r1 := l.dropWhile isPySpace
  let r2 := match r1 with
    | '(' :: t => t.dropWhile isPySpace
    | _ => r1
  match r2 with
  | 'd' :: 'o' :: 't' :: t =>
    let r3 := t.dropWhile isPySpace
    let r4 := match r3 with
      | ')' :: t2 => t2.dropWhile isPySpace
      | _ => r3
    some r4
  | _ => none

/-- A match of `DEOBF_PATTERNS[2] = \s*\[at\]\s*` starting at the head. -/
def tryBracketAt (l : List Char) : Option (List Char) :=
  match l.dropWhile isPySpace with
  | '[' :: 'a' :: 't' :: ']' :: t => some (t.dropWhile isPySpace)
  | _ => none

/-- A match of `DEOBF_PATTERNS[3] = \s*\[dot\]\s*` starting at the head. -/
def tryBracketDot (l : List Char) : Option (List Char) :=
  match l.dropWhile isPySpace with
  | '[' :: 'd' :: 'o' :: 't' :: ']' :: t => some (t.dropWhile isPySpace)
  | _ => none

/-- A match of `DEOBF_PATTERNS[4] = \s*@,\.*\s*` starting at the head. -/
def tryAtComma (l : List Char) : Option (List Char) :=
  match l.dropWhile isPySpace with
  | '@' :: ',' :: t => some ((t.dropWhile (· = '.')).dropWhile isPySpace)
  | _ => none

/-- A match of `DEOBF_PATTERNS[5] = \s+@\s+` starting at the head. -/
def tryWsAtWs (l : List Char) : Option (List Char) :=
  match l with
  | c :: _ =>
    if isPySpace c then
      match l.dropWhile isPySpace with
      | '@' :: rest =>
        match rest with
        | d :: _ => if isPySpace d then some (rest.dropWhile isPySpace) else none
        | [] => none
      | _ => none
    else none
  | [] => none

/-- `deobfuscate`: strip, lowercase, then the six `DEOBF_PATTERNS`
substitutions in order. -/
def deobfuscate (s : String) : String :=
  let l := (pyStrip s.data).map Char.toLower
  let l := reSub tryTextAt '@' l
  let l := reSub tryTextDot '.' l
  let l := reSub tryBracketAt '@' l
  let l := reSub tryBracketDot '.' l
  let l := reSub tryAtComma '@' l
  let l := reSub tryWsAtWs '@' l
  ⟨l⟩

/-- The wrapping characters stripped by `normalize`:
`email.strip("<>\"' ,;:!()[]")`. -/
def wrapChar (c : Char) : Bool :=
  c = '<' || c = '>' || c = '"' || c = '\'' || c = ' ' || c = ','
    || c = ';' || c = ':' || c = '!' || c = '(' || c = ')' || c = '[' || c = ']'

/-- `normalize` of `Email_cleaner.py`. -/
def normalize (email : String) : String :=
  let l := (deobfuscate email).data
  let l := pyStripChars wrapChar l
  let l := collapseRuns '@' l
  let l := collapseRuns '.' l
  let l := subAroundChar '@' l
  let l := l.filter (fun c => ! isPySpace c)
  let l := subAtCommaDots l
  if l.contains '@' then
    let localPart := pyStripChars (· = '.') (l.takeWhile (· ≠ '@'))
    let domPart := pyStripChars (· = '.') ((l.dropWhile (· ≠ '@')).tail)
    ⟨localPart ++ '@' :: domPart⟩
  else ⟨l⟩

/-- `correct_domain` of `Email_cleaner.py` (fuzzy cutoff `0.7 = 7/10`).
Note that, unlike the bot's `fuzzy_correct_domain`, there is no membership
test against `COMMON_DOMAINS` before the fuzzy step. -/
def correct_domain (email : String) : String × Bool :=
  if email.data.contains '@' then
    let localPart : String := ⟨email.data.takeWhile (· ≠ '@')⟩
    let domain : String := ⟨(pyStrip ((email.data.dropWhile (· ≠ '@')).tail)).map Char.toLower⟩
    match TYPO_CORRECTIONS.lookup domain with
    | some fixed => (localPart ++ "@" ++ fixed, true)
    | none =>
      let fuzzyStep : String × Bool :=
        match Difflib.get_close_matches domain COMMON_DOMAINS 7 10 with
        | some m => (localPart ++ "@" ++ m, true)
        | none => (localPart ++ "@" ++ domain, false)
      if ! domain.data.contains '.' then
        let guess := domain ++ ".com"
        if guess ∈ COMMON_DOMAINS then (localPart ++ "@" ++ guess, true) else fuzzyStep
      else fuzzyStep
  else (email, false)

/-- Local-part class of `EMAIL_REGEX`: `[A-Za-z0-9._%+-]`. -/
def ecLocalChar (c : Char) : Bool :=
  c.isAlpha || c.isDigit || c = '.' || c = '_' || c = '%' || c = '+' || c = '-'

/-- Domain class of `EMAIL_REGEX`: `[A-Za-z0-9.-]`. -/
def ecDomainChar (c : Char) : Bool :=
  c.isAlpha || c.isDigit || c = '.' || c = '-'

/-- TLD class of `EMAIL_REGEX`: `[A-Za-z]`. -/
def ecTldChar (c : Char) : Bool := c.isAlpha

/-- `is_valid`: `bool(EMAIL_REGEX.match(email))` with
`EMAIL_REGEX = ^[A-Za-z0-9._%+-]+@[A-Za-z0-9.-]+\.[A-Za-z]{2,}$`; Python's
`$` also matches just before one string-final newline. -/
def is_valid (email : String) : Bool :=
  regexCoreMatch ecLocalChar ecDomainChar ecTldChar email.data
  || (decide (email.data.getLast? = some '\n')
      && regexCoreMatch ecLocalChar ecDomainChar ecTldChar email.data.dropLast)

/-- Loop body of `clean_emails`: state is `(seen, cleaned)`; `seen` is a
Python set used only for membership, modelled as a list. -/
def cleanStep (st : List String × List String) (raw : String) : List String × List String :=
  if raw = "" then st
  else
    let e := normalize raw
    let e := (correct_domain e).1
    let e : String := ⟨replacePair '.' e.data⟩
    let e : String := ⟨replacePair '@' e.data⟩
    if is_valid e then
      if e ∈ st.1 then st else (e :: st.1, st.2 ++ [e])
    else st

/-- `clean_emails` (the write of `cleaned_emails.txt` is I/O and outside the
pure model; the returned list is the function's value). -/
def clean_emails (raw_list : List String) : List String :=
  stableSort keyLe (raw_list.foldl cleanStep ([], [])).2

end EmailCleaner

/-! ### Order lemmas for the sort comparator -/

theorem charToNatInj {a b : Char} (h : a.toNat = b.toNat) : a = b :=
  Char.ext (UInt32.toNat.inj h)

theorem listLtIrrefl : ∀ l : List Char, listLt l l = false
  | [] => rfl
  | a :: as => by
    simp only [listLt, Nat.lt_irrefl, if_false]
    exact listLtIrrefl as

theorem listLtTrans : ∀ a b c : List Char,
    listLt a b = true → listLt b c = true → listLt a c = true
  | [], [], _, h1, _ => by cases h1
  | [], _ :: _, [], _, h2 => by cases h2
  | [], _ :: _, _ :: _, _, _ => rfl
  | _ :: _, [], _, h1, _ => by cases h1
  | _ :: _, _ :: _, [], _, h2 => by cases h2
  | x :: xs, y :: ys, z :: zs, h1, h2 => by
    simp only [listLt] at h1 h2 ⊢
    split_ifs at h1 h2 ⊢ <;> try omega
    all_goals try exact listLtTrans xs ys zs h1 h2
    all_goals simp_all

theorem listLtTotal : ∀ a b : List Char, listLt a b = true ∨ a = b ∨ listLt b a = true
  | [], [] => Or.inr (Or.inl rfl)
  | [], _ :: _ => Or.inl rfl
  | _ :: _, [] => Or.inr (Or.inr rfl)
  | x :: xs, y :: ys => by
    rcases Nat.lt_trichotomy x.toNat y.toNat with h | h | h
    · exact Or.inl (by simp [listLt, h])
    · rcases listLtTotal xs ys with h2 | h2 | h2
      · exact Or.inl (by simp [listLt, h, h2])
      · exact Or.inr (Or.inl (by rw [charToNatInj h, h2]))
      · exact Or.inr (Or.inr (by simp [listLt, h, h2]))
    · exact Or.inr (Or.inr (by simp [listLt, h]))

theorem strLtTrans {a b c : String} (h1 : strLt a b = true) (h2 : strLt b c = true) :
    strLt a c = true :=
  listLtTrans a.data b.data c.data h1 h2

theorem strLtTotal (a b : String) : strLt a b = true ∨ a = b ∨ strLt b a = true := by
  rcases listLtTotal a.data b.data with h | h | h
  · exact Or.inl h
  · exact Or.inr (Or.inl (by cases a; cases b; exact congrArg String.mk (by simpa using h)))
  · exact Or.inr (Or.inr h)

theorem strLtIrrefl (a : String) : strLt a a = false :=
  listLtIrrefl a.data

theorem strLtAsymm {a b : String} (h1 : strLt a b = true) (h2 : strLt b a = true) : False := by
  have := strLtTrans h1 h2
  rw [strLtIrrefl] at this
  cases this

theorem keyLeTotal (x y : String) : keyLe x y || keyLe y x := by
  unfold keyLe
  rcases strLtTotal (sortKey x).1 (sortKey y).1 with h | h | h
  · simp [h]
  · rcases strLtTotal (sortKey x).2 (sortKey y).2 with h2 | h2 | h2 <;> simp [h, h2]
  · simp [h]

theorem keyLeTrans (x y z : String) (h1 : keyLe x y) (h2 : keyLe y z) : keyLe x z := by
  unfold keyLe at h1 h2 ⊢
  simp only [Bool.or_eq_true, Bool.and_eq_true, decide_eq_true_eq] at h1 h2 ⊢
  rcases h1 with h1 | ⟨h1e, h1l⟩
  · rcases h2 with h2 | ⟨h2e, _⟩
    · exact Or.inl (strLtTrans h1 h2)
    · exact Or.inl (h2e ▸ h1)
  · rcases h2 with h2 | ⟨h2e, h2l⟩
    · exact Or.inl (h1e ▸ h2)
    · refine Or.inr ⟨h1e.trans h2e, ?_⟩
      rcases h1l with h1l | h1l
      · rcases h2l with h2l | h2l
        · exact Or.inl (strLtTrans h1l h2l)
        · exact Or.inl (h2l ▸ h1l)
      · rcases h2l with h2l | h2l
        · exact Or.inl (h1l ▸ h2l)
        · exact Or.inr (h1l.trans h2l)

/-! ### Correctness of `stableSort` -/

theorem memOrderedInsert (le : α → α → Bool) (x : α) :
    ∀ (l : List α) (z : α), z ∈ orderedInsert le x l ↔ z = x ∨ z ∈ l
  | [], z => by simp [orderedInsert]
  | y :: ys, z => by
    simp only [orderedInsert]
    split
    · simp only [List.mem_cons, memOrderedInsert le x ys z]
      tauto
    · simp only [List.mem_cons]

theorem pairwiseOrderedInsert (le : α → α → Bool)
    (htrans : ∀ a b c, le a b = true → le b c = true → le a c = true)
    (htotal : ∀ a b, le a b || le b a) (x : α) :
    ∀ l : List α, l.Pairwise (le · ·) → (orderedInsert le x l).Pairwise (le · ·)
  | [], _ => by simp [orderedInsert]
  | y :: ys, h => by
    rcases List.pairwise_cons.mp h with ⟨hy, hys⟩
    simp only [orderedInsert]
    split
    · refine List.pairwise_cons.mpr ⟨?_, pairwiseOrderedInsert le htrans htotal x ys hys⟩
      intro z hz
      rcases (memOrderedInsert le x ys z).mp hz with rfl | hzys
      · assumption
      · exact hy z hzys
    · refine List.pairwise_cons.mpr ⟨?_, h⟩
      intro z hz
      have hxy : le x y = true := by
        have := htotal y x
        simp only [Bool.or_eq_true] at this
        rcases this with hyx | hxy
        · simp_all
        · exact hxy
      rcases List.mem_cons.mp hz with rfl | hzys
      · exact hxy
      · exact htrans x y z hxy (hy z hzys)

theorem pairwiseStableSortAux (le : α → α → Bool)
    (htrans : ∀ a b c, le a b = true → le b c = true → le a c = true)
    (htotal : ∀ a b, le a b || le b a) :
    ∀ (l acc : List α), acc.Pairwise (le · ·) →
      (l.foldl (fun acc x => orderedInsert le x acc) acc).Pairwise (le · ·)
  | [], acc, h => h
  | x :: xs, acc, h =>
    pairwiseStableSortAux le htrans htotal xs (orderedInsert le x acc)
      (pairwiseOrderedInsert le htrans htotal x acc h)

/-- The output of `stableSort` is pairwise ordered when the comparator is
transitive and total. -/
theorem pairwiseStableSort (le : α → α → Bool)
    (htrans : ∀ a b c, le a b = true → le b c = true → le a c = true)
    (htotal : ∀ a b, le a b || le b a) (l : List α) :
    (stableSort le l).Pairwise (le · ·) :=
  pairwiseStableSortAux le htrans htotal l [] (by simp)

theorem lengthOrderedInsert (le : α → α → Bool) (x : α) :
    ∀ l : List α, (orderedInsert le x l).length = l.length + 1
  | [] => rfl
  | y :: ys => by
    simp only [orderedInsert]
    split
    · simp [lengthOrderedInsert le x ys]
    · simp

theorem lengthStableSortAux (le : α → α → Bool) :
    ∀ (l acc : List α),
      (l.foldl (fun acc x => orderedInsert le x acc) acc).length = acc.length + l.length
  | [], acc => by simp
  | x :: xs, acc => by
    simp only [List.foldl_cons, lengthStableSortAux le xs (orderedInsert le x acc),
      lengthOrderedInsert, List.length_cons]
    omega

/-- `stableSort` preserves length. -/
theorem lengthStableSort (le : α → α → Bool) (l : List α) :
    (stableSort le l).length = l.length := by
  have := lengthStableSortAux le l []
  simpa [stableSort] using this

/-! ### takeWhile / dropWhile splitting lemmas -/

theorem takeWhileAppendOfAll (p : Char → Bool) :
    ∀ (xs : List Char) (y : Char) (ys : List Char),
      (∀ x ∈ xs, p x = true) → p y = false →
      (xs ++ y :: ys).takeWhile p = xs ∧ (xs ++ y :: ys).dropWhile p = y :: ys
  | [], y, ys, _, hy => by
    constructor
    · simp [List.takeWhile_cons, hy]
    · simp [List.dropWhile_cons, hy]
  | x :: xs, y, ys, hall, hy => by
    have hx : p x = true := hall x (by simp)
    have ih := takeWhileAppendOfAll p xs y ys (fun z hz => hall z (by simp [hz])) hy
    constructor
    · simp [List.takeWhile_cons, hx, ih.1]
    · simp [List.dropWhile_cons, hx, ih.2]

theorem dropWhileHeadFalse (p : Char → Bool) :
    ∀ (l : List Char) {x : Char} {xs : List Char}, l.dropWhile p = x :: xs → p x = false
  | [], _, _, h => by cases h
  | a :: as, x, xs, h => by
    rw [List.dropWhile_cons] at h
    split at h
    · exact dropWhileHeadFalse p as h
    · cases h
      simp_all

theorem dropWhileNeNilOfMem (p : Char → Bool) {x : Char} (hx : p x = false) :
    ∀ l : List Char, x ∈ l → l.dropWhile p ≠ []
  | a :: as, hmem => by
    rw [List.dropWhile_cons]
    split
    · rcases List.mem_cons.mp hmem with rfl | hmem2
      · simp_all
      · exact dropWhileNeNilOfMem p hx as hmem2
    · simp

/-- The executable matcher `regexCoreMatch` recognizes exactly the language
of `^L+@D+\.T{2,}$`, provided `L` excludes `@` (so the first `@` of a match
is the `@` of the pattern) and `T` excludes `.` (so the dot of the pattern
is the last dot). -/
theorem regexCoreMatchIffLang (L D T : Char → Bool)
    (hL : L '@' = false) (hTdot : T '.' = false) (l : List Char) :
    regexCoreMatch L D T l = true ↔ RegexCoreLang L D T l := by
  constructor
  · intro h
    unfold regexCoreMatch at h
    simp only [Bool.and_eq_true, decide_eq_true_eq] at h
    obtain ⟨⟨⟨⟨⟨⟨⟨hne1, hne2⟩, hloc⟩, hlocall⟩, hd⟩, hdall⟩, htlen⟩, htall⟩ := h
    obtain ⟨a, r, h1⟩ := List.exists_cons_of_ne_nil hne1
    have ha : a = '@' := by
      have := dropWhileHeadFalse (fun c => decide (c ≠ '@')) l h1
      simpa using this
    rw [h1] at hne2 hd hdall htlen htall
    simp only [List.tail_cons] at hne2 hd hdall htlen htall
    obtain ⟨b, dRev, h2⟩ := List.exists_cons_of_ne_nil hne2
    have hb : b = '.' := by
      have := dropWhileHeadFalse (fun c => decide (c ≠ '.')) r.reverse h2
      simpa using this
    rw [h2] at hd hdall
    simp only [List.tail_cons] at hd hdall
    have hrev : r.reverse = r.reverse.takeWhile (· ≠ '.') ++ b :: dRev := by
      rw [← h2, List.takeWhile_append_dropWhile]
    revert htlen htall hrev
    generalize r.reverse.takeWhile (· ≠ '.') = tw
    intro htall htlen hrev
    have hr : r = dRev.reverse ++ '.' :: tw.reverse := by
      have hz := congrArg List.reverse hrev
      rw [List.reverse_reverse, hb] at hz
      rw [hz]
      simp [List.reverse_append]
    have hsplit : l = l.takeWhile (· ≠ '@') ++ a :: r := by
      rw [← h1, List.takeWhile_append_dropWhile]
    refine ⟨l.takeWhile (· ≠ '@'), dRev.reverse, tw.reverse, ?_, hloc, hlocall,
      by simpa using hd, by simpa using hdall, by simpa using htlen, by simpa using htall⟩
    calc l = l.takeWhile (· ≠ '@') ++ a :: r := hsplit
      _ = l.takeWhile (· ≠ '@') ++ '@' :: (dRev.reverse ++ '.' :: tw.reverse) := by
        rw [ha, hr]
  · rintro ⟨loc, d, t, rfl, hloc, hlocall, hd, hdall, htlen, htall⟩
    have hlocat : ∀ x ∈ loc, (decide (x ≠ '@')) = true := by
      intro x hx
      have hxL := (List.all_eq_true.mp hlocall) x hx
      simp only [decide_eq_true_eq]
      intro hcon
      rw [hcon, hL] at hxL
      cases hxL
    have hsplit := takeWhileAppendOfAll (fun c => decide (c ≠ '@')) loc '@'
      (d ++ '.' :: t) hlocat (by simp)
    have htdot : ∀ x ∈ t.reverse, (decide (x ≠ '.')) = true := by
      intro x hx
      have hxT := (List.all_eq_true.mp htall) x (List.mem_reverse.mp hx)
      simp only [decide_eq_true_eq]
      intro hcon
      rw [hcon, hTdot] at hxT
      cases hxT
    have hrrev : (d ++ '.' :: t).reverse = t.reverse ++ '.' :: d.reverse := by
      simp [List.reverse_append]
    have hsplit2 := takeWhileAppendOfAll (fun c => decide (c ≠ '.')) t.reverse '.'
      d.reverse htdot (by simp)
    unfold regexCoreMatch
    simp only [hsplit.2, List.tail_cons]
    rw [hrrev]
    simp only [hsplit2.2, List.tail_cons, hsplit.1, hsplit2.1]
    simp only [Bool.and_eq_true, decide_eq_true_eq]
    refine ⟨⟨⟨⟨⟨⟨⟨by simp, by simp⟩, hloc⟩, hlocall⟩, by simpa using hd⟩,
      by simpa using hdall⟩, by simpa using htlen⟩, by simpa using htall⟩

/-! ### The validator shape as worded by claim C5 (spec side) -/

/-- The validator shape exactly as claim C5 words it, for `EMAIL_VALID_RE`'s
character classes: the string has the shape `local@domain` with exactly one
`@`; the local part is one or more characters of `[a-z0-9._%+-]`; the domain
is one or more characters of `[a-z0-9.-]` containing at least one dot; and
the segment after the last dot is two or more alphabetic characters. -/
def claimValidShape (s : String) : Bool :=
  let l := s.data
  let loc := l.takeWhile (· ≠ '@')
  let dom := (l.dropWhile (· ≠ '@')).tail
  decide (l.count '@' = 1)
    && decide (loc ≠ []) && loc.all TgBot.localChar
    && decide (dom ≠ []) && dom.all TgBot.domainChar && dom.contains '.'
    && decide (2 ≤ (dom.reverse.takeWhile (· ≠ '.')).length)
    && (dom.reverse.takeWhile (· ≠ '.')).all TgBot.tldChar

/-- Core of the amended claim-C5 shape: `claimValidShape` plus the
requirement — forced by the counterexample `"x@.ab"` — that the domain text
before its last dot is nonempty. -/
def claimValidShapeCore (l : List Char) : Bool :=
  let loc := l.takeWhile (· ≠ '@')
  let dom := (l.dropWhile (· ≠ '@')).tail
  decide (l.count '@' = 1)
    && decide (loc ≠ []) && loc.all TgBot.localChar
    && decide (dom ≠ []) && dom.all TgBot.domainChar && dom.contains '.'
    && decide (2 ≤ (dom.reverse.takeWhile (· ≠ '.')).length)
    && (dom.reverse.takeWhile (· ≠ '.')).all TgBot.tldChar
    && decide ((dom.reverse.dropWhile (· ≠ '.')).tail ≠ [])

/-- The amended claim-C5 shape: the core shape holds for the string itself
or — forced by the counterexample `"a@b.co\n"` — for the string with one
string-final newline removed. -/
def claimValidShapeAmended (s : String) : Bool :=
  claimValidShapeCore s.data
  || (decide (s.data.getLast? = some '\n') && claimValidShapeCore s.data.dropLast)

theorem tldCharSubDomainChar (c : Char) (h : TgBot.tldChar c = true) :
    TgBot.domainChar c = true := by
  unfold TgBot.tldChar at h
  unfold TgBot.domainChar
  simp [h]

/-- The amended claim-C5 core shape describes exactly the language of
`EMAIL_VALID_RE`'s pattern. -/
theorem claimValidShapeCoreIffLang (l : List Char) :
    claimValidShapeCore l = true
      ↔ RegexCoreLang TgBot.localChar TgBot.domainChar TgBot.tldChar l := by
  constructor
  · intro h
    unfold claimValidShapeCore at h
    simp only [Bool.and_eq_true, decide_eq_true_eq, List.contains_eq_any_beq,
      List.any_eq_true, beq_iff_eq] at h
    obtain ⟨⟨⟨⟨⟨⟨⟨⟨hcount, hloc⟩, hlocall⟩, _hdom⟩, hdall⟩, hdot⟩, htlen⟩, htall⟩, hpre⟩ := h
    have hatmem : '@' ∈ l := List.count_pos_iff.mp (by omega)
    have hne1 : l.dropWhile (· ≠ '@') ≠ [] :=
      dropWhileNeNilOfMem (fun c => decide (c ≠ '@')) (by simp) l hatmem
    obtain ⟨a, dom, h1⟩ := List.exists_cons_of_ne_nil hne1
    have ha : a = '@' := by
      have := dropWhileHeadFalse (fun c => decide (c ≠ '@')) l h1
      simpa using this
    rw [h1] at hdall hdot htlen htall hpre
    simp only [List.tail_cons] at hdall hdot htlen htall hpre
    obtain ⟨dot, hdotmem, hdoteq⟩ := hdot
    have hdotdom : '.' ∈ dom := by rw [← hdoteq] at hdotmem; exact hdotmem
    have hne2 : dom.reverse.dropWhile (· ≠ '.') ≠ [] :=
      dropWhileNeNilOfMem (fun c => decide (c ≠ '.')) (by simp) dom.reverse
        (List.mem_reverse.mpr hdotdom)
    obtain ⟨b, pre, h2⟩ := List.exists_cons_of_ne_nil hne2
    have hb : b = '.' := by
      have := dropWhileHeadFalse (fun c => decide (c ≠ '.')) dom.reverse h2
      simpa using this
    rw [h2] at hpre
    simp only [List.tail_cons] at hpre
    have hrev : dom.reverse = dom.reverse.takeWhile (· ≠ '.') ++ b :: pre := by
      rw [← h2, List.takeWhile_append_dropWhile]
    revert htlen htall hrev
    generalize dom.reverse.takeWhile (· ≠ '.') = tw
    intro htall htlen hrev
    have hr : dom = pre.reverse ++ '.' :: tw.reverse := by
      have hz := congrArg List.reverse hrev
      rw [List.reverse_reverse, hb] at hz
      rw [hz]
      simp [List.reverse_append]
    have hsplit : l = l.takeWhile (· ≠ '@') ++ a :: dom := by
      rw [← h1, List.takeWhile_append_dropWhile]
    refine ⟨l.takeWhile (· ≠ '@'), pre.reverse, tw.reverse, ?_, hloc, hlocall,
      by simpa using hpre, ?_, by simpa using htlen, by simpa using htall⟩
    · calc l = l.takeWhile (· ≠ '@') ++ a :: dom := hsplit
        _ = l.takeWhile (· ≠ '@') ++ '@' :: (pre.reverse ++ '.' :: tw.reverse) := by
          rw [ha, hr]
    · rw [List.all_eq_true] at hdall ⊢
      intro x hx
      refine hdall x ?_
      rw [hr]
      exact List.mem_append_left _ hx
  · rintro ⟨loc, d, t, rfl, hloc, hlocall, hd, hdall, htlen, htall⟩
    have hlocat : ∀ x ∈ loc, (decide (x ≠ '@')) = true := by
      intro x hx
      have hxL := (List.all_eq_true.mp hlocall) x hx
      simp only [decide_eq_true_eq]
      intro hcon
      rw [hcon] at hxL
      simp [TgBot.localChar] at hxL
    have hsplit := takeWhileAppendOfAll (fun c => decide (c ≠ '@')) loc '@'
      (d ++ '.' :: t) hlocat (by simp)
    have htdot : ∀ x ∈ t.reverse, (decide (x ≠ '.')) = true := by
      intro x hx
      have hxT := (List.all_eq_true.mp htall) x (List.mem_reverse.mp hx)
      simp only [decide_eq_true_eq]
      intro hcon
      rw [hcon] at hxT
      simp [TgBot.tldChar] at hxT
    have hrrev : (d ++ '.' :: t).reverse = t.reverse ++ '.' :: d.reverse := by
      simp [List.reverse_append]
    have hsplit2 := takeWhileAppendOfAll (fun c => decide (c ≠ '.')) t.reverse '.'
      d.reverse htdot (by simp)
    have hcount : (loc ++ '@' :: (d ++ '.' :: t)).count '@' = 1 := by
      have hcl : loc.count '@' = 0 := by
        rw [List.count_eq_zero]
        intro hmem
        have := hlocat '@' hmem
        simp at this
      have hcd : d.count '@' = 0 := by
        rw [List.count_eq_zero]
        intro hmem
        have := (List.all_eq_true.mp hdall) '@' hmem
        simp [TgBot.domainChar] at this
      have hct : t.count '@' = 0 := by
        rw [List.count_eq_zero]
        intro hmem
        have := (List.all_eq_true.mp htall) '@' hmem
        simp [TgBot.tldChar] at this
      simp [List.count_append, List.count_cons, hcl, hcd, hct]
    unfold claimValidShapeCore
    simp only [hsplit.1, hsplit.2, List.tail_cons]
    rw [hrrev]
    simp only [hsplit2.1, hsplit2.2, List.tail_cons]
    simp only [Bool.and_eq_true, decide_eq_true_eq]
    refine ⟨⟨⟨⟨⟨⟨⟨⟨hcount, hloc⟩, hlocall⟩, by simp⟩, ?_⟩, ?_⟩,
      by simpa using htlen⟩, by simpa using htall⟩, by simpa using hd⟩
    · rw [List.all_eq_true]
      intro x hx
      rcases List.mem_append.mp hx with hx | hx
      · exact (List.all_eq_true.mp hdall) x hx
      · rcases List.mem_cons.mp hx with rfl | hx
        · simp [TgBot.domainChar]
        · exact tldCharSubDomainChar x ((List.all_eq_true.mp htall) x hx)
    · simp only [List.contains_eq_any_beq, List.any_eq_true, beq_iff_eq]
      exact ⟨'.', by simp, rfl⟩

/-- The bot's regex checker and the (amended) claim-C5 shape agree on every
core string. -/
theorem coreAgree (l : List Char) :
    regexCoreMatch TgBot.localChar TgBot.domainChar TgBot.tldChar l
      = claimValidShapeCore l := by
  rw [Bool.eq_iff_iff]
  rw [regexCoreMatchIffLang TgBot.localChar TgBot.domainChar TgBot.tldChar
    (by decide) (by decide) l]
  exact (claimValidShapeCoreIffLang l).symm

/-! ### Count conservation of `clean_email_list` -/

/-- The loop invariant of claim C4: candidates counted so far = kept so far
+ rejected so far + duplicate drops so far. -/
def botStateConserves (st : TgBot.BotState) : Prop :=
  st.total_input = st.cleaned.length + st.removed.length + st.duplicates

theorem processCandidateConserves (st : TgBot.BotState) (p : List Char)
    (h : botStateConserves st) : botStateConserves (TgBot.processCandidate st p) := by
  unfold botStateConserves at h ⊢
  unfold TgBot.processCandidate
  dsimp only
  split
  · exact h
  · split
    · simp only [List.length_append, List.length_cons, List.length_nil]
      omega
    · split
      · simp only []
        omega
      · simp only [List.length_append, List.length_cons, List.length_nil]
        omega

theorem foldCandidatesConserves :
    ∀ (parts : List (List Char)) (st : TgBot.BotState), botStateConserves st →
      botStateConserves (parts.foldl TgBot.processCandidate st)
  | [], _, h => h
  | p :: ps, st, h =>
    foldCandidatesConserves ps _ (processCandidateConserves st p h)

theorem processItemConserves (st : TgBot.BotState) (raw : String)
    (h : botStateConserves st) : botStateConserves (TgBot.processItem st raw) := by
  unfold TgBot.processItem
  split
  · exact h
  · exact foldCandidatesConserves _ st h

theorem foldItemsConserves :
    ∀ (items : List String) (st : TgBot.BotState), botStateConserves st →
      botStateConserves (items.foldl TgBot.processItem st)
  | [], _, h => h
  | i :: is, st, h => foldItemsConserves is _ (processItemConserves st i h)

/-! ### Membership lemmas for `get_close_matches` and dictionary lookups -/

theorem pickBestMem :
    ∀ (l : List (Nat × Nat × String)) (e : Nat × Nat × String),
      Difflib.pickBest l = some e → e ∈ l
  | [], _, h => by cases h
  | a :: rest, e, h => by
    unfold Difflib.pickBest at h
    rcases hr : Difflib.pickBest rest with _ | b
    · rw [hr] at h
      simp only [Option.some.injEq] at h
      subst h
      exact List.mem_cons_self a rest
    · rw [hr] at h
      simp only [] at h
      split at h
      · simp only [Option.some.injEq] at h
        subst h
        exact List.mem_cons_self a rest
      · simp only [Option.some.injEq] at h
        subst h
        exact List.mem_cons_of_mem a (pickBestMem rest b hr)

theorem gcmMem (word : String) (poss : List String) (cn cd : Nat) (m : String)
    (h : Difflib.get_close_matches word poss cn cd = some m) : m ∈ poss := by
  unfold Difflib.get_close_matches at h
  simp only [Option.map_eq_some'] at h
  obtain ⟨e, he, hm⟩ := h
  have hmem := pickBestMem _ e he
  obtain ⟨x, hx, hfx⟩ := List.mem_filterMap.mp hmem
  split at hfx
  · simp only [Option.some.injEq] at hfx
    rw [← hm, ← hfx]
    exact hx
  · cases hfx

theorem lookupMemOfSome [BEq α] [LawfulBEq α] (k : α) (v : β) :
    ∀ l : List (α × β), List.lookup k l = some v → (k, v) ∈ l
  | [], h => by cases h
  | (a, b) :: rest, h => by
    rw [List.lookup] at h
    split at h
    · simp only [Option.some.injEq] at h
      have : k = a := by simp_all
      simp [this, ← h]
    · exact List.mem_cons_of_mem _ (lookupMemOfSome k v rest h)

/-! ### The corrected-flag contract of the two domain correctors (claim C6) -/

/-- The "structurally-normalized input" against which `correct_domain`'s
return value is compared: the local part unchanged and the domain after the
`strip().lower()` that `correct_domain` itself applies; the whole e-mail
unchanged when it contains no `@` (in which case `correct_domain` returns it
as is). -/
def EmailCleaner.correctDomainBaseline (email : String) : String :=
  if email.data.contains '@' then
    (⟨email.data.takeWhile (· ≠ '@')⟩ : String) ++ "@"
      ++ ⟨(pyStrip ((email.data.dropWhile (· ≠ '@')).tail)).map Char.toLower⟩
  else email

/-- For the bot's `fuzzy_correct_domain` the flag is exact: it is `true`
exactly when the returned domain differs from the normalized input domain. -/
theorem fuzzyCorrectDomainFlag (domain : String) :
    (TgBot.fuzzy_correct_domain domain).2 = true
      ↔ (TgBot.fuzzy_correct_domain domain).1 ≠ TgBot.normalize_domain_part domain := by
  unfold TgBot.fuzzy_correct_domain
  dsimp only
  split
  · simp
  · rename_i hnotmem
    rcases hlook : (TgBot.replacements.lookup (TgBot.normalize_domain_part domain)) with _ | r
    · rcases hgcm : Difflib.get_close_matches (TgBot.normalize_domain_part domain)
          TgBot.COMMON_DOMAINS 3 4 with _ | m
      · simp
      · simp only [true_iff]
        have hmmem : m ∈ TgBot.COMMON_DOMAINS := gcmMem _ _ _ _ _ hgcm
        intro hcon
        rw [hcon] at hmmem
        exact hnotmem hmmem
    · simp only [true_iff]
      have hmem := lookupMemOfSome _ _ _ hlook
      have hall : ∀ p ∈ TgBot.replacements, p.2 ≠ p.1 := by decide
      exact hall _ hmem

/-- For `Email_cleaner.py`'s `correct_domain` only one direction of the
claim-C6 contract holds: when the flag is `false` the e-mail is returned in
its structurally-normalized form (equivalently, any change implies
`wasCorrected = true`). -/
theorem correctDomainFalseUnchanged (email : String)
    (h : (EmailCleaner.correct_domain email).2 = false) :
    (EmailCleaner.correct_domain email).1 = EmailCleaner.correctDomainBaseline email := by
  unfold EmailCleaner.correct_domain at h ⊢
  unfold EmailCleaner.correctDomainBaseline
  dsimp only at h ⊢
  set L : String := ⟨email.data.takeWhile (· ≠ '@')⟩ with hL
  set D : String := ⟨(pyStrip ((email.data.dropWhile (· ≠ '@')).tail)).map Char.toLower⟩ with hD
  by_cases hat : email.data.contains '@' = true
  · rw [if_pos hat] at h ⊢
    rcases hlook : EmailCleaner.TYPO_CORRECTIONS.lookup D with _ | r
    · rw [hlook] at h
      simp only [] at h ⊢
      by_cases hdot : (! D.data.contains '.') = true
      · rw [if_pos hdot] at h ⊢
        by_cases hguess : (D ++ ".com") ∈ EmailCleaner.COMMON_DOMAINS
        · rw [if_pos hguess] at h
          simp at h
        · rw [if_neg hguess] at h ⊢
          rcases hgcm : Difflib.get_close_matches D EmailCleaner.COMMON_DOMAINS 7 10
            with _ | m
          · rw [hgcm] at h
            simp only [] at h ⊢
            rw [if_pos hat]
          · rw [hgcm] at h
            simp at h
      · rw [if_neg hdot] at h ⊢
        rcases hgcm : Difflib.get_close_matches D EmailCleaner.COMMON_DOMAINS 7 10
          with _ | m
        · rw [hgcm] at h
          simp only [] at h ⊢
          rw [if_pos hat]
        · rw [hgcm] at h
          simp at h
    · rw [hlook] at h
      simp at h
  · rw [if_neg hat] at h ⊢
    rw [if_neg hat]

/-! ## The claims -/

/-- Claim C1, counterexample: on Scenario A's token list the batch cleaner
does not behave as claimed — `bob@yahoo.com` is not in the cleaned list and
the removed list is not empty (the bracket obfuscation `[at]`/`[dot]` is not
recovered: the brackets are stripped as illegal characters, leaving no `@`). -/
theorem claim_C1_counterexample :
    ¬ ("bob@yahoo.com" ∈ (TgBot.clean_email_list
          ["john..doe@gmail.com", ".alice@yahoo.com", "bob[at]yahoo[dot]com"] 0).cleaned
       ∧ (TgBot.clean_email_list
          ["john..doe@gmail.com", ".alice@yahoo.com", "bob[at]yahoo[dot]com"] 0).removed = []) := by
  decide

/-- Claim C1, amended: on the input
`["john..doe@gmail.com", ".alice@yahoo.com", "bob[at]yahoo[dot]com"]` the
batch cleaner `clean_email_list` returns cleaned
`["john.doe@gmail.com", "alice@yahoo.com"]`, zero duplicates, and the
bracket-obfuscated token rejected as `no_at`; `Email_cleaner.py`'s
`clean_emails` likewise drops the bracketed token (silently) and keeps the
other two. -/
theorem claim_C1_amended :
    TgBot.clean_email_list
        ["john..doe@gmail.com", ".alice@yahoo.com", "bob[at]yahoo[dot]com"] 0
      = ⟨["john.doe@gmail.com", "alice@yahoo.com"],
         [("bob[at]yahoo[dot]com", "no_at")], ⟨3, 2, 1, 0, 0⟩⟩
    ∧ EmailCleaner.clean_emails
        ["john..doe@gmail.com", ".alice@yahoo.com", "bob[at]yahoo[dot]com"]
      = ["john.doe@gmail.com", "alice@yahoo.com"] :=
  ⟨by decide, by decide⟩

/-- Claim C2, counterexample: `normalize` is not idempotent — one pass on
`"a t"` deletes the inner whitespace and produces `"at"`, which a second
pass deobfuscates to `"@"`. -/
theorem claim_C2_counterexample :
    EmailCleaner.normalize (EmailCleaner.normalize "a t")
      ≠ EmailCleaner.normalize "a t" := by
  decide

/-- Claim C2, amended: `normalize` is idempotent only at its fixed points —
whenever one pass returns its input unchanged, a second pass changes
nothing; in general a single pass can delete whitespace and expose a new
obfuscation marker (`"a t" ↦ "at" ↦ "@"`), so full idempotence fails. -/
theorem claim_C2_amended (s : String) (h : EmailCleaner.normalize s = s) :
    EmailCleaner.normalize (EmailCleaner.normalize s) = EmailCleaner.normalize s := by
  rw [h]
  exact h

/-- Witness for the amended claim C2 at the fixed point `"a@b.com"`. -/
theorem claim_C2_witness :
    EmailCleaner.normalize "a@b.com" = "a@b.com"
    ∧ EmailCleaner.normalize (EmailCleaner.normalize "a@b.com")
        = EmailCleaner.normalize "a@b.com" :=
  ⟨by decide, claim_C2_amended "a@b.com" (by decide)⟩

/-- Claim C3: `clean_email_list` is deterministic — the only impure input of
the Python function is the wall-clock reading (modelled by the extra
parameter), and the cleaned list, the removed list, and all four summary
counts are independent of it, so two invocations on the same item sequence
agree on every one of those fields. -/
theorem claim_C3_determinism (items : List String) (t1 t2 : Nat) :
    (TgBot.clean_email_list items t1).cleaned = (TgBot.clean_email_list items t2).cleaned
    ∧ (TgBot.clean_email_list items t1).removed = (TgBot.clean_email_list items t2).removed
    ∧ (TgBot.clean_email_list items t1).summary.total_input
        = (TgBot.clean_email_list items t2).summary.total_input
    ∧ (TgBot.clean_email_list items t1).summary.kept
        = (TgBot.clean_email_list items t2).summary.kept
    ∧ (TgBot.clean_email_list items t1).summary.removed
        = (TgBot.clean_email_list items t2).summary.removed
    ∧ (TgBot.clean_email_list items t1).summary.duplicates
        = (TgBot.clean_email_list items t2).summary.duplicates :=
  ⟨rfl, rfl, rfl, rfl, rfl, rfl⟩

/-- Claim C4: count conservation — for every input list (and any clock
reading) the summary of `clean_email_list` satisfies
`total_input = kept + removed + duplicates`. -/
theorem claim_C4_count_conservation (items : List String) (elapsed : Nat) :
    (TgBot.clean_email_list items elapsed).summary.total_input
      = (TgBot.clean_email_list items elapsed).summary.kept
        + (TgBot.clean_email_list items elapsed).summary.removed
        + (TgBot.clean_email_list items elapsed).summary.duplicates := by
  have h := foldItemsConserves items ⟨[], [], [], 0, 0⟩ rfl
  unfold botStateConserves at h
  unfold TgBot.clean_email_list
  dsimp only
  rw [lengthStableSort]
  exact h

/-- Claim C5, counterexample: the validator and the claimed shape are not
equivalent in either direction — `"a@b.co\n"` is accepted by the regex
(Python's `$` matches before a string-final newline) but has no
`local@domain` shape over the claimed character sets, while `"x@.ab"` has
the claimed shape (domain `.ab` is over `[a-z0-9.-]`, contains a dot, and
its last-dot segment `ab` is two alphabetic characters) but is rejected by
the regex, whose domain needs at least one character before the dot. -/
theorem claim_C5_counterexample :
    (TgBot.emailValidMatch "a@b.co\n" = true ∧ claimValidShape "a@b.co\n" = false)
    ∧ (TgBot.emailValidMatch "x@.ab" = false ∧ claimValidShape "x@.ab" = true) :=
  ⟨⟨by decide, by decide⟩, by decide, by decide⟩

/-- Claim C5, amended: `EMAIL_VALID_RE.match` accepts a string exactly when,
after removing one optional string-final newline, it has the claimed shape
`local@domain` (local part one-or-more of `[a-z0-9._%+-]`, exactly one `@`,
domain one-or-more of `[a-z0-9.-]` containing at least one dot, the segment
after the last dot two-or-more alphabetic characters) and additionally the
domain segment before the last dot is nonempty. -/
theorem claim_C5_amended (s : String) :
    TgBot.emailValidMatch s = claimValidShapeAmended s := by
  unfold TgBot.emailValidMatch claimValidShapeAmended
  rw [coreAgree, coreAgree]

/-- Claim C6, counterexample: `correct_domain` violates the claimed
equivalence — for `"a@me.com"` the domain `me.com` is already in the
reference table and is returned unchanged (it equals the
structurally-normalized input), yet `wasCorrected = true`, because the
fuzzy step runs without a prior membership test and matches the domain to
itself. -/
theorem claim_C6_counterexample :
    (EmailCleaner.correct_domain "a@me.com").2 = true
    ∧ (EmailCleaner.correct_domain "a@me.com").1 = "a@me.com"
    ∧ EmailCleaner.correctDomainBaseline "a@me.com" = "a@me.com" :=
  ⟨by decide, by decide, by decide⟩

/-- Claim C6, amended: the bot's `fuzzy_correct_domain` satisfies the claimed
equivalence — the flag is `true` exactly when the returned domain differs
from the structurally-normalized input; for `Email_cleaner.py`'s
`correct_domain` only the direction "flag `false` implies returned
unchanged" holds (equivalently, any change implies `wasCorrected = true`),
the converse failing for domains already in its reference table. -/
theorem claim_C6_amended :
    (∀ domain : String, (TgBot.fuzzy_correct_domain domain).2 = true
        ↔ (TgBot.fuzzy_correct_domain domain).1 ≠ TgBot.normalize_domain_part domain)
    ∧ (∀ email : String, (EmailCleaner.correct_domain email).2 = false
        → (EmailCleaner.correct_domain email).1 = EmailCleaner.correctDomainBaseline email) :=
  ⟨fuzzyCorrectDomainFlag, correctDomainFalseUnchanged⟩

/-- Witness for the amended claim C6 at `"x@unknown.xyz"`, a domain that no
correction stage touches: the flag is `false` and the e-mail is returned in
its structurally-normalized form. -/
theorem claim_C6_witness :
    (EmailCleaner.correct_domain "x@unknown.xyz").2 = false
    ∧ (EmailCleaner.correct_domain "x@unknown.xyz").1
        = EmailCleaner.correctDomainBaseline "x@unknown.xyz" :=
  ⟨by decide, claim_C6_amended.2 "x@unknown.xyz" (by decide)⟩

/-- Claim C7: the sort invariant — in every result of `clean_email_list`
each adjacent pair of the cleaned list is ordered by the Python key tuples
`(domain, local)`, ascending lexicographically. -/
theorem claim_C7_sorted (items : List String) (elapsed : Nat) :
    List.Chain' (fun x y => keyLe x y = true)
      (TgBot.clean_email_list items elapsed).cleaned := by
  have hp := pairwiseStableSort keyLe keyLeTrans keyLeTotal
    (items.foldl TgBot.processItem ⟨[], [], [], 0, 0⟩).cleaned
  exact List.Pairwise.chain' hp

/-- Claim C8, counterexample: appending a newline to an accepted string does
not always keep it accepted — `"a@b.de\n"` is accepted but
`"a@b.de\n\n"` is not (`$` tolerates only one trailing newline). -/
theorem claim_C8_counterexample :
    TgBot.emailValidMatch "a@b.de\n" = true
    ∧ TgBot.emailValidMatch ("a@b.de\n" ++ "\n") = false :=
  ⟨by decide, by decide⟩

/-- Claim C8, amended: both email regexes are `$`-anchored, so every
accepted string that does not already end in a newline is still accepted
after appending one newline; consequently the validators accept some
inputs containing whitespace (e.g. `"x@y.de\n"`). -/
theorem claim_C8_amended :
    (∀ e : String, TgBot.emailValidMatch e = true → e.data.getLast? ≠ some '\n'
        → TgBot.emailValidMatch (e ++ "\n") = true)
    ∧ (∀ e : String, EmailCleaner.is_valid e = true → e.data.getLast? ≠ some '\n'
        → EmailCleaner.is_valid (e ++ "\n") = true)
    ∧ TgBot.emailValidMatch "x@y.de\n" = true
    ∧ "x@y.de\n".data.any isPySpace = true := by
  refine ⟨?_, ?_, by decide, by decide⟩
  · intro e he hnl
    unfold TgBot.emailValidMatch at he ⊢
    have h2 : decide (e.data.getLast? = some '\n') = false := by simpa using hnl
    rw [h2] at he
    simp only [Bool.false_and, Bool.or_false] at he
    have hdata : (e ++ "\n").data = e.data ++ ['\n'] := by
      rw [String.data_append]
    rw [hdata, List.getLast?_concat, List.dropLast_concat]
    simp [he]
  · intro e he hnl
    unfold EmailCleaner.is_valid at he ⊢
    have h2 : decide (e.data.getLast? = some '\n') = false := by simpa using hnl
    rw [h2] at he
    simp only [Bool.false_and, Bool.or_false] at he
    have hdata : (e ++ "\n").data = e.data ++ ['\n'] := by
      rw [String.data_append]
    rw [hdata, List.getLast?_concat, List.dropLast_concat]
    simp [he]

/-- Witness for the amended claim C8 at `"x@y.de"`. -/
theorem claim_C8_witness :
    TgBot.emailValidMatch ("x@y.de" ++ "\n") = true
    ∧ EmailCleaner.is_valid ("x@y.de" ++ "\n") = true :=
  ⟨claim_C8_amended.1 "x@y.de" (by decide) (by decide),
   claim_C8_amended.2.1 "x@y.de" (by decide) (by decide)⟩

/-- Claim C9: the deobfuscator rewrites the letter sequences `at` and `dot`
anywhere — inside the local part (`kate ↦ k@e`, `bigdot ↦ big.`) and inside
domain labels (`data.de ↦ d@a.de`) — and consequently the already-valid
address `kate@gmail.com` is mangled by the pipeline: `clean_emails` keeps it
only as `k@gmail.com`, not in its original form. -/
theorem claim_C9_deobfuscation_mangles :
    EmailCleaner.deobfuscate "kate@gmail.com" = "k@e@gmail.com"
    ∧ EmailCleaner.deobfuscate "bigdot@gmail.com" = "big.@gmail.com"
    ∧ EmailCleaner.deobfuscate "eve@data.de" = "eve@d@a.de"
    ∧ EmailCleaner.is_valid "kate@gmail.com" = true
    ∧ EmailCleaner.clean_emails ["kate@gmail.com"] = ["k@gmail.com"] :=
  ⟨by decide, by decide, by decide, by decide, by decide⟩

/-- Claim C10: fuzzy correction silently redirects plausible unknown
domains — `gmx.ch` is syntactically valid (`user@gmx.ch` passes the
validator) and absent from the reference tables, yet both correctors rewrite
it to `gmx.com` with `wasCorrected = true`. -/
theorem claim_C10_fuzzy_redirect :
    TgBot.fuzzy_correct_domain "gmx.ch" = ("gmx.com", true)
    ∧ TgBot.COMMON_DOMAINS_SET.contains "gmx.ch" = false
    ∧ TgBot.emailValidMatch "user@gmx.ch" = true
    ∧ EmailCleaner.correct_domain "user@gmx.ch" = ("user@gmx.com", true)
    ∧ EmailCleaner.COMMON_DOMAINS.contains "gmx.ch" = false :=
  ⟨by decide, by decide, by decide, by decide, by decide⟩
